import Mathlib

/-!
# Shallow embedding of the Q-Game engine (src/main.py, class QGameEngine)

This file embeds the rule engine, scoring, turn logic and minimax search of
`src/main.py` (the `QGameEngine` class) in Lean 4, and settles the frozen
claims about it.  `src/qgame.py` contains a near-identical engine; where the
two differ the difference is noted in a comment next to the definition.

Modelling conventions:
* Python ints are `Int` (`consecutive_passes` can go negative during the
  minimax undo of a simulated pass, so it is `Int`); scores only grow and are
  `Nat`.
* The board dict is an association list `List (Pos × Tile)`; insertion
  follows Python dict semantics (overwrite in place, new keys appended).
* Python `set` iteration order is unspecified; `get_valid_positions` returns
  `list(positions)`.  The embedding fixes one deterministic enumeration
  (first-occurrence order of the generated neighbour list).  No theorem below
  depends on this order except concrete evaluations, whose proved facts are
  robust to any enumeration order.
* The `while` loops that walk a line outward are embedded with explicit fuel
  `board.length + 1`, which dominates the length of any contiguous occupied
  run.
* `evaluate_game_state` returns the float
  `score_diff + 0.5*(hand difference) + 0.1*(open positions)`; all values it
  can take are integer multiples of 1/10, so the embedding returns the exact
  value scaled by 10 as an `Int` (order-isomorphic, so every comparison made
  by the search is preserved).
* Player `name` and the engine's `debug_info` string are display-only and
  never read by the logic; they are omitted.
-/

namespace QGame

inductive Shape
| circle
| square
| star
| diamond
| clover
| cross
deriving DecidableEq, Fintype

inductive Color
| red
| blue
| green
| yellow
| purple
| orange
deriving DecidableEq, Fintype

/-- `class Tile`: a (shape, color) pair with structural equality. -/
structure Tile where
  shape : Shape
  color : Color
deriving DecidableEq

/-- `GameState` enum of the source (`PLAYER_TURN`, `AI_TURN`, `GAME_OVER`). -/
inductive GState
| playerTurn
| aiTurn
| gameOver
deriving DecidableEq

abbrev Pos := Int × Int

/-- The board dict `(row, col) -> Tile` as an association list. -/
abbrev Board := List (Pos × Tile)

/-- `(row, col) in board` / `board[(row, col)]`. -/
def boardGet : Board → Pos → Option Tile
  | [], _ => none
  | (q, t) :: rest, p => if q = p then some t else boardGet rest p

/-- `board[(row, col)] = tile`, with Python dict semantics: an existing key is
overwritten in place, a new key is appended in insertion order. -/
def boardSet (b : Board) (p : Pos) (t : Tile) : Board :=
  if (boardGet b p).isSome then b.map (fun e => if e.1 = p then (p, t) else e)
  else b ++ [(p, t)]

/-- A player dict: hand, score, is_ai (the display-only name is omitted). -/
structure Player where
  hand : List Tile
  score : Nat
  isAi : Bool
deriving DecidableEq

/-- The mutable state of `QGameEngine` (two players, as in the source). -/
structure Engine where
  board : Board
  p0 : Player
  p1 : Player
  current : Nat
  gstate : GState
  bag : List Tile
  passes : Int
deriving DecidableEq

/-- `self.players[i]` for `i ∈ {0, 1}` (the engine only ever uses 0 and 1). -/
def getPlayer (st : Engine) (i : Nat) : Player :=
  if i = 0 then st.p0 else st.p1

def setPlayer (st : Engine) (i : Nat) (p : Player) : Engine :=
  if i = 0 then { st with p0 := p } else { st with p1 := p }

/-- The four orthogonal directions `[(-1,0), (1,0), (0,-1), (0,1)]`. -/
def dirs : List (Int × Int) := [(-1, 0), (1, 0), (0, -1), (0, 1)]

def shift (p : Pos) (d : Int × Int) : Pos := (p.1 + d.1, p.2 + d.2)

/-- Some orthogonal neighbour of `p` is occupied. -/
def hasNeighborB (b : Board) (p : Pos) : Bool :=
  dirs.any (fun d => (boardGet b (shift p d)).isSome)

/-- `get_valid_positions`: all empty positions orthogonally adjacent to an
occupied cell, or just the origin on an empty board.  The source collects
them in a Python `set`; the embedding enumerates them in first-generation
order and deduplicates. -/
def getValidPositions (st : Engine) : List Pos :=
  if st.board.isEmpty then [(0, 0)]
  else (((st.board.map (fun e => e.1)).flatMap
          (fun p => dirs.map (fun d => shift p d))).filter
        (fun q => (boardGet st.board q).isNone)).dedup

/-- One `(row, col, tile)` triple of a move. -/
structure Placement where
  row : Int
  col : Int
  tile : Tile
deriving DecidableEq

def Placement.pos (p : Placement) : Pos := (p.row, p.col)

/-- The hand-containment loop: `hand_copy.remove(tile)` for every placed
tile, `none` when some tile is missing (the `ValueError` branch). -/
def removeAll : List Tile → List Tile → Option (List Tile)
  | h, [] => some h
  | h, t :: ts => if t ∈ h then removeAll (h.erase t) ts else none

/-- Insertion sort on integers, embedding Python's `sorted`. -/
def insertSorted (x : Int) : List Int → List Int
  | [] => [x]
  | y :: ys => if x ≤ y then x :: y :: ys else y :: insertSorted x ys

def sortInts : List Int → List Int
  | [] => []
  | x :: xs => insertSorted x (sortInts xs)

/-- The contiguity scan: every gap between consecutive sorted coordinates
must be exactly 1. -/
def consecOnes : List Int → Bool
  | a :: b :: t => if b - a = 1 then consecOnes (b :: t) else false
  | _ => true

/-- `while (row, c) in temp_board: c -= 1` (fuelled). -/
def scanLeft (b : Board) (r : Int) : Nat → Int → Int
  | 0, c => c
  | Nat.succ f, c => if (boardGet b (r, c)).isSome then scanLeft b r f (c - 1) else c

/-- `while (row, c) in temp_board: row_tiles.append(...); c += 1` (fuelled). -/
def collectRow (b : Board) (r : Int) : Nat → Int → List Tile
  | 0, _ => []
  | Nat.succ f, c =>
    match boardGet b (r, c) with
    | some t => t :: collectRow b r f (c + 1)
    | none => []

def scanUp (b : Board) (c : Int) : Nat → Int → Int
  | 0, r => r
  | Nat.succ f, r => if (boardGet b (r, c)).isSome then scanUp b c f (r - 1) else r

def collectCol (b : Board) (c : Int) : Nat → Int → List Tile
  | 0, _ => []
  | Nat.succ f, r =>
    match boardGet b (r, c) with
    | some t => t :: collectCol b c f (r + 1)
    | none => []

/-- The start column of the contiguous row run through `(r, c)`. -/
def rowStart (b : Board) (r c : Int) : Int := scanLeft b r (b.length + 1) c + 1

/-- The row line through `(r, c)` (the source's `row_tiles`). -/
def rowTiles (b : Board) (r c : Int) : List Tile :=
  collectRow b r (b.length + 1) (rowStart b r c)

/-- The start row of the contiguous column run through `(r, c)`. -/
def colStart (b : Board) (r c : Int) : Int := scanUp b c (b.length + 1) r + 1

/-- The column line through `(r, c)` (the source's `col_tiles`). -/
def colTiles (b : Board) (r c : Int) : List Tile :=
  collectCol b c (b.length + 1) (colStart b r c)

/-- `validate_line`: all same color with pairwise-distinct shapes, or all
same shape with pairwise-distinct colors.  (`qgame.py` omits the `< 2`
early-accept but is only ever called on lines of length > 1.) -/
def validateLine (ts : List Tile) : Bool × String :=
  if ts.length < 2 then (true, "")
  else
    let colors := ts.map Tile.color
    let shapes := ts.map Tile.shape
    if colors.dedup.length = 1 ∧ shapes.dedup.length = shapes.length then (true, "")
    else if shapes.dedup.length = 1 ∧ colors.dedup.length = colors.length then (true, "")
    else (false, "Must be all same color with unique shapes OR all same shape with unique colors")

/-- `temp_board = board.copy()` followed by writing every placement. -/
def placeAll (b : Board) (pl : List Placement) : Board :=
  pl.foldl (fun b p => boardSet b p.pos p.tile) b

/-- The final loop of `is_valid_placement`: for every placed coordinate the
row and column line of the hypothetical board must validate. -/
def checkLines (tb : Board) : List Placement → Bool × String
  | [] => (true, "Valid")
  | p :: rest =>
    let rt := rowTiles tb p.row p.col
    if 1 < rt.length ∧ (validateLine rt).1 = false then
      (false, "Row invalid: " ++ (validateLine rt).2)
    else
      let ct := colTiles tb p.row p.col
      if 1 < ct.length ∧ (validateLine ct).1 = false then
        (false, "Column invalid: " ++ (validateLine ct).2)
      else checkLines tb rest

/-- `is_valid_placement`, as the source's chain of early returns. -/
def isValidPlacement (st : Engine) (pl : List Placement) : Bool × String :=
  if pl.isEmpty then (false, "No placements")
  else if (removeAll (getPlayer st st.current).hand (pl.map Placement.tile)).isNone then
    (false, "Don't have these tiles")
  else if pl.any (fun p => (boardGet st.board p.pos).isSome) then
    (false, "Position occupied")
  else if 1 < (pl.map Placement.row).dedup.length ∧ 1 < (pl.map Placement.col).dedup.length then
    (false, "Must be in same row or column")
  else if 1 < pl.length ∧ (pl.map Placement.row).dedup.length = 1 ∧
      ¬ consecOnes (sortInts (pl.map Placement.col)) then
    (false, "Tiles must be adjacent horizontally")
  else if 1 < pl.length ∧ (pl.map Placement.row).dedup.length ≠ 1 ∧
      ¬ consecOnes (sortInts (pl.map Placement.row)) then
    (false, "Tiles must be adjacent vertically")
  else if ¬ st.board.isEmpty ∧ ¬ pl.any (fun p => hasNeighborB st.board p.pos) then
    (false, "Must connect to existing tiles")
  else checkLines (placeAll st.board pl) pl

/-- The dedup key `('row', row, start_col)` / `('col', col, start_row)` of
`calculate_score`. -/
inductive LineKey
| row (r : Int) (start : Int)
| col (c : Int) (start : Int)
deriving DecidableEq

/-- The length of the line a key denotes, on a given board: the run collected
from the key's start coordinate onward.  On the keys the engine builds this
is definitionally the `len(row_tiles)` / `len(col_tiles)` of the source. -/
def keyLen (tb : Board) : LineKey → Nat
  | LineKey.row r s => (collectRow tb r (tb.length + 1) s).length
  | LineKey.col c s => (collectCol tb c (tb.length + 1) s).length

def rowKeyAt (tb : Board) (p : Placement) : LineKey :=
  LineKey.row p.row (rowStart tb p.row p.col)

def colKeyAt (tb : Board) (p : Placement) : LineKey :=
  LineKey.col p.col (colStart tb p.row p.col)

/-- The scoring loop of `calculate_score`: walk the placements, and for each
row/column line of length > 1 whose key is unseen, add its length. -/
def scoreLoop (tb : Board) : List Placement → Nat → List LineKey → Nat
  | [], sc, _ => sc
  | p :: rest, sc, seen =>
    let rk := rowKeyAt tb p
    let s1 := if 1 < keyLen tb rk ∧ rk ∉ seen then (sc + keyLen tb rk, rk :: seen) else (sc, seen)
    let ck := colKeyAt tb p
    let s2 := if 1 < keyLen tb ck ∧ ck ∉ s1.2 then (s1.1 + keyLen tb ck, ck :: s1.2) else s1
    scoreLoop tb rest s2.1 s2.2

/-- `calculate_score` of `main.py`.  (`qgame.py` guards the final fallback
with `len(placements) == 1` instead of `placements`; the two agree on every
validated move, where a multi-tile move always produces a line of
length > 1.) -/
def calculateScore (st : Engine) (pl : List Placement) : Nat :=
  let tb := placeAll st.board pl
  let sc := scoreLoop tb pl 0 []
  if sc = 0 ∧ ¬ pl.isEmpty then 1 else sc

/-- `draw_tile`: Python `list.pop()` removes the last element. -/
def drawTile (bag : List Tile) : Option Tile × List Tile :=
  match bag.getLast? with
  | none => (none, bag)
  | some t => (some t, bag.dropLast)

/-- The replacement-draw loop of `make_move`: `len(placements)` draws, each
appended to the current player's hand when the bag is non-empty. -/
def drawLoop (st : Engine) : Nat → Engine
  | 0 => st
  | Nat.succ n =>
    let d := drawTile st.bag
    let st1 := { st with bag := d.2 }
    let st2 :=
      match d.1 with
      | some t =>
        setPlayer st1 st1.current
          { getPlayer st1 st1.current with hand := (getPlayer st1 st1.current).hand ++ [t] }
      | none => st1
    drawLoop st2 n

/-- The hand after `player["hand"].remove(tile)` for every placed tile. -/
def handAfter (st : Engine) (pl : List Placement) : List Tile :=
  pl.foldl (fun h p => h.erase p.tile) (getPlayer st st.current).hand

/-- The state after the hand removal and the board writes of `make_move`. -/
def placedState (st : Engine) (pl : List Placement) : Engine :=
  setPlayer { st with board := placeAll st.board pl } st.current
    { getPlayer st st.current with hand := handAfter st pl }

/-- `score = self.calculate_score(placements)`, evaluated (as in the source)
after the tiles are already on the board — `calculate_score` re-inserts them
into its own temporary copy, so the value is the same. -/
def moveScore (st : Engine) (pl : List Placement) : Nat :=
  calculateScore (placedState st pl) pl

/-- The state after `player["score"] += score`. -/
def scoredState (st : Engine) (pl : List Placement) : Engine :=
  setPlayer (placedState st pl) (placedState st pl).current
    { getPlayer (placedState st pl) (placedState st pl).current with
      score := (getPlayer (placedState st pl) (placedState st pl).current).score +
        moveScore st pl }

/-- `make_move`: validate, then remove the tiles from the hand, write them to
the board, add the score, draw replacements, reset the pass counter and
switch turns.  On a failed validation the state is returned untouched. -/
def makeMove (st : Engine) (pl : List Placement) : (Bool × Nat × String) × Engine :=
  if (isValidPlacement st pl).1 = true then
    let st3 := drawLoop (scoredState st pl) pl.length
    let st4 := { st3 with passes := 0, current := 1 - st.current }
    let st5 := { st4 with
      gstate := if (getPlayer st4 st4.current).isAi then GState.aiTurn else GState.playerTurn }
    ((true, moveScore st pl, "Success"), st5)
  else ((false, 0, (isValidPlacement st pl).2), st)

/-- `pass_turn`: bump the pass counter, switch turns, and end the game when
two consecutive passes have accumulated. -/
def passTurn (st : Engine) : Engine :=
  let st1 := { st with passes := st.passes + 1, current := 1 - st.current }
  let st2 := { st1 with
    gstate := if (getPlayer st1 st1.current).isAi then GState.aiTurn else GState.playerTurn }
  if 2 ≤ st2.passes then { st2 with gstate := GState.gameOver } else st2

/-- `evaluate_game_state` scaled by 10:
the source returns `(ai_score - player_score) + 0.5*(ai_tiles - player_tiles)
+ 0.1*len(valid_positions) + 0`, every value an exact multiple of 1/10, so
the embedding returns ten times the exact value as an integer (the scaling is
order-preserving, hence every comparison the search makes is unchanged). -/
def evaluateGameState (st : Engine) : Int :=
  10 * ((st.p1.score : Int) - (st.p0.score : Int)) +
    5 * ((st.p1.hand.length : Int) - (st.p0.hand.length : Int)) +
    (getValidPositions st).length

/-- `get_all_possible_moves`: all validated single-tile placements of the
current hand on the frontier, capped at 20. -/
def getAllPossibleMoves (st : Engine) : List (List Placement) :=
  (((getPlayer st st.current).hand).flatMap (fun t =>
    (getValidPositions st).filterMap (fun p =>
      if (isValidPlacement st [⟨p.1, p.2, t⟩]).1 = true then some [(⟨p.1, p.2, t⟩ : Placement)]
      else none))).take 20

/-- Python floats as the search uses them: finite values (here: exact values
scaled by 10) plus `float('-inf')` / `float('inf')`. -/
inductive XR
| negInf
| fin (v : Int)
| posInf
deriving DecidableEq

/-- `<=` on the value domain. -/
def XR.leB : XR → XR → Bool
  | _, XR.posInf => true
  | XR.posInf, _ => false
  | XR.negInf, _ => true
  | XR.fin _, XR.negInf => false
  | XR.fin a, XR.fin b => a ≤ b

/-- Python `max(a, b)` (returns the first argument on ties). -/
def XR.maxB (a b : XR) : XR := if XR.leB b a then a else b

/-- Python `min(a, b)` (returns the first argument on ties). -/
def XR.minB (a b : XR) : XR := if XR.leB a b then a else b

/-- The pass simulation inside `minimax`. -/
def simPass (st : Engine) : Engine :=
  { st with passes := st.passes + 1, current := 1 - st.current }

/-- Undoing a simulated pass (`current` flipped back, counter decremented;
nothing else is restored). -/
def undoPass (st : Engine) : Engine :=
  { st with current := 1 - st.current, passes := st.passes - 1 }

/-- The undo block of `minimax`: board, both hands, both scores and the
player index are restored from the snapshot, and `game_state` is recomputed;
the tile bag and the pass counter are NOT restored (they are not saved by the
source). -/
def minimaxRestore (old stN : Engine) : Engine :=
  let st1 := { stN with
    board := old.board,
    p0 := { stN.p0 with hand := old.p0.hand, score := old.p0.score },
    p1 := { stN.p1 with hand := old.p1.hand, score := old.p1.score },
    current := old.current }
  { st1 with
    gstate := if (getPlayer st1 st1.current).isAi then GState.aiTurn else GState.playerTurn }

/-- The maximizing move loop of `minimax` with alpha-beta pruning; `rec` is
the recursion at the next-lower depth. -/
def maxLoop (rec : XR → XR → Engine → XR × Engine) :
    List (List Placement) → XR → XR → XR → Engine → XR × Engine
  | [], _, _, best, st => (best, st)
  | mv :: rest, alpha, beta, best, st =>
    let old := st
    let st1 := (makeMove st mv).2
    let r := rec alpha beta st1
    let st3 := minimaxRestore old r.2
    let best1 := XR.maxB best r.1
    let alpha1 := XR.maxB alpha r.1
    if XR.leB beta alpha1 then (best1, st3) else maxLoop rec rest alpha1 beta best1 st3

/-- The minimizing move loop of `minimax`. -/
def minLoop (rec : XR → XR → Engine → XR × Engine) :
    List (List Placement) → XR → XR → XR → Engine → XR × Engine
  | [], _, _, best, st => (best, st)
  | mv :: rest, alpha, beta, best, st =>
    let old := st
    let st1 := (makeMove st mv).2
    let r := rec alpha beta st1
    let st3 := minimaxRestore old r.2
    let best1 := XR.minB best r.1
    let beta1 := XR.minB beta r.1
    if XR.leB beta1 alpha then (best1, st3) else minLoop rec rest alpha beta1 best1 st3

/-- `minimax(depth, alpha, beta, is_maximizing)`.  The source mutates
`self`; the embedding threads the engine state and returns it alongside the
value, so the state-restoration behaviour of the search is itself visible. -/
def minimax : Nat → XR → XR → Bool → Engine → XR × Engine
  | 0, _, _, _, st => (XR.fin (evaluateGameState st), st)
  | Nat.succ d, alpha, beta, isMax, st =>
    if st.gstate = GState.gameOver then (XR.fin (evaluateGameState st), st)
    else if isMax then
      match getAllPossibleMoves st with
      | [] =>
        let st1 := simPass st
        let r := minimax d alpha beta false st1
        let st3 := undoPass r.2
        (XR.maxB XR.negInf r.1, st3)
      | mv :: rest =>
        maxLoop (fun a b s => minimax d a b false s) (mv :: rest) alpha beta XR.negInf st
    else
      match getAllPossibleMoves st with
      | [] =>
        let st1 := simPass st
        let r := minimax d alpha beta true st1
        let st3 := undoPass r.2
        (XR.minB XR.posInf r.1, st3)
      | mv :: rest =>
        minLoop (fun a b s => minimax d a b true s) (mv :: rest) alpha beta XR.posInf st

/-- The restore block of `ai_make_move`'s root loop: board, hands, scores
and the player index from the snapshot, `game_state` set to `AI_TURN`;
again the tile bag and pass counter are not saved or restored. -/
def aiRootRestore (old stN : Engine) : Engine :=
  { stN with
    board := old.board,
    p0 := { stN.p0 with hand := old.p0.hand, score := old.p0.score },
    p1 := { stN.p1 with hand := old.p1.hand, score := old.p1.score },
    current := old.current,
    gstate := GState.aiTurn }

/-- One root-candidate exploration of `ai_make_move`: snapshot, simulate the
move with `make_move`, evaluate the opponent's reply via
`minimax(depth=2, -inf, inf, False)`, then restore the snapshot. -/
def aiSearchStep (st : Engine) (mv : List Placement) : XR × Engine :=
  let st1 := (makeMove st mv).2
  let r := minimax 2 XR.negInf XR.posInf false st1
  (r.1, aiRootRestore st r.2)

/-- The root loop of `ai_make_move`: keep the first candidate of strictly
maximal search value (`if move_score > best_score`). -/
def aiChooseLoop : List (List Placement) → XR → Option (List Placement) → Engine →
    Option (List Placement) × Engine
  | [], _, best, st => (best, st)
  | mv :: rest, bestV, best, st =>
    let r := aiSearchStep st mv
    if XR.leB r.1 bestV then aiChooseLoop rest bestV best r.2
    else aiChooseLoop rest r.1 (some mv) r.2

/-- The defensive fallback of `ai_make_move`: apply the first candidate that
succeeds, else pass.  (The success message carries the score in the tuple;
the display string is abbreviated.) -/
def aiFallback : List (List Placement) → Engine → (Bool × Nat × String) × Engine
  | [], st => ((false, 0, "AI passed"), passTurn st)
  | mv :: rest, st =>
    let r := makeMove st mv
    if r.1.1 = true then ((true, r.1.2.1, "AI placed tile(s)"), r.2)
    else aiFallback rest r.2

/-- `ai_make_move`: generate candidates, search each with snapshot/restore,
commit the best, fall back to the first applicable candidate, else pass. -/
def aiMakeMove (st : Engine) : (Bool × Nat × String) × Engine :=
  match getAllPossibleMoves st with
  | [] => ((false, 0, "AI passed (no valid moves)"), passTurn st)
  | mv :: rest =>
    let c := aiChooseLoop (mv :: rest) XR.negInf none st
    match c.1 with
    | some best =>
      let r := makeMove c.2 best
      if r.1.1 = true then ((true, r.1.2.1, "AI placed tile(s)"), r.2)
      else aiFallback (mv :: rest) r.2
    | none => aiFallback (mv :: rest) c.2

/-- The total tile content of a state: board tiles, both hands, the bag, as
one multiset. -/
def totalTiles (st : Engine) : Multiset Tile :=
  (st.board.map (fun e => e.2) : Multiset Tile) + (st.p0.hand : Multiset Tile) +
    (st.p1.hand : Multiset Tile) + (st.bag : Multiset Tile)

/-! ## Helper lemmas -/

/-- C3 (confirmed): when validation rejects a move list, `make_move` raises
nothing, reports the failure (with the validator's message) as an ordinary
result value, and returns every component of the game state exactly as it
was. -/
theorem makeMove_invalid_eq (st : Engine) (pl : List Placement)
    (h : (isValidPlacement st pl).1 = false) :
    makeMove st pl = ((false, 0, (isValidPlacement st pl).2), st) := by
  unfold makeMove
  simp [h]

/-- C4 (corrected): the Terminal phase is not absorbing at the engine level.
`pass_turn` performs no phase check: on a Terminal state (whose pass counter
is at least 2) it still increments the pass counter and flips the current
player; only the phase itself remains `GAME_OVER`, because the counter stays
at or above the threshold. -/
theorem passTurn_unfolded (st : Engine) (_h1 : st.gstate = GState.gameOver)
    (h2 : 2 ≤ st.passes) :
    (passTurn st).gstate = GState.gameOver ∧ (passTurn st).passes = st.passes + 1 ∧
      (passTurn st).current = 1 - st.current := by
  unfold passTurn
  have hp : (2 : Int) ≤ st.passes + 1 := by omega
  simp [hp]

/-- C5 (corrected): after every successful placement the engine
unconditionally advances to the other player's turn — there is no
end-of-game check on an emptied hand and empty bag, so the phase never
becomes Terminal here, regardless of hand or inventory. -/
theorem makeMove_valid_final (st : Engine) (pl : List Placement)
    (h : (isValidPlacement st pl).1 = true) :
    (makeMove st pl).2.gstate ≠ GState.gameOver ∧
      (makeMove st pl).2.current = 1 - st.current := by
  unfold makeMove
  simp only [h, if_pos]
  constructor
  · split <;> simp
  · trivial

/-- C6 (corrected): exploring a root candidate in `ai_make_move` restores
the board, both hands, both scores and the player index from the snapshot
(and resets the phase to `AI_TURN`); the tile bag and the consecutive-pass
counter are NOT part of the snapshot and are not restored, so simulation can
leak into them. -/
theorem aiSearchStep_components (st : Engine) (mv : List Placement) :
    (aiSearchStep st mv).2.board = st.board ∧
    (aiSearchStep st mv).2.p0.hand = st.p0.hand ∧
    (aiSearchStep st mv).2.p0.score = st.p0.score ∧
    (aiSearchStep st mv).2.p1.hand = st.p1.hand ∧
    (aiSearchStep st mv).2.p1.score = st.p1.score ∧
    (aiSearchStep st mv).2.current = st.current ∧
    (aiSearchStep st mv).2.gstate = GState.aiTurn := by
  unfold aiSearchStep aiRootRestore
  simp

/-- Decomposition of a passed validation: every early-return guard of
`is_valid_placement` was false, and the line checks returned true. -/
theorem valid_facts (st : Engine) (pl : List Placement)
    (h : (isValidPlacement st pl).1 = true) :
    pl ≠ [] ∧
    removeAll (getPlayer st st.current).hand (pl.map Placement.tile) ≠ none ∧
    (∀ p ∈ pl, boardGet st.board p.pos = none) ∧
    (1 < pl.length → (pl.map Placement.row).dedup.length = 1 →
      consecOnes (sortInts (pl.map Placement.col)) = true) ∧
    (1 < pl.length → (pl.map Placement.row).dedup.length ≠ 1 →
      consecOnes (sortInts (pl.map Placement.row)) = true) ∧
    (checkLines (placeAll st.board pl) pl).1 = true := by
  unfold isValidPlacement at h
  by_cases c1 : pl.isEmpty = true
  · simp [c1] at h
  by_cases c2 :
      (removeAll (getPlayer st st.current).hand (pl.map Placement.tile)).isNone = true
  · simp [c1, c2] at h
  by_cases c3 : pl.any (fun p => (boardGet st.board p.pos).isSome) = true
  · simp [c1, c2, c3] at h
  by_cases c4 : 1 < (pl.map Placement.row).dedup.length ∧
      1 < (pl.map Placement.col).dedup.length
  · simp [c1, c2, c3, c4] at h
  by_cases c5 : 1 < pl.length ∧ (pl.map Placement.row).dedup.length = 1 ∧
      consecOnes (sortInts (pl.map Placement.col)) = false
  · simp [c1, c2, c3, c4, c5] at h
  by_cases c6 : 1 < pl.length ∧ ¬ (pl.map Placement.row).dedup.length = 1 ∧
      consecOnes (sortInts (pl.map Placement.row)) = false
  · simp [c1, c2, c3, c4, c5, c6] at h
  simp [c1, c2, c3, c4, c5, c6] at h
  split at h
  · simp at h
  refine ⟨by simpa [List.isEmpty_iff] using c1, by simpa using c2, by simpa using c3,
    ?_, ?_, h⟩
  · intro hl hr
    by_contra hcc
    exact c5 ⟨hl, hr, by simpa using hcc⟩
  · intro hl hr
    by_contra hcc
    exact c6 ⟨hl, hr, by simpa using hcc⟩

theorem insertSorted_perm (x : Int) : ∀ l : List Int, (insertSorted x l).Perm (x :: l) := by
  intro l
  induction l with
  | nil => simp [insertSorted]
  | cons y ys ih =>
    unfold insertSorted
    split
    · exact List.Perm.refl _
    · exact ((ih.cons y).trans (List.Perm.swap x y ys))

theorem sortInts_perm : ∀ l : List Int, (sortInts l).Perm l := by
  intro l
  induction l with
  | nil => simp [sortInts]
  | cons x xs ih =>
    exact (insertSorted_perm x (sortInts xs)).trans (ih.cons x)

theorem consecOnes_chain : ∀ l : List Int, consecOnes l = true → l.Chain' (· < ·) := by
  intro l
  induction l with
  | nil => intro _; exact List.chain'_nil
  | cons a t ih =>
    cases t with
    | nil => intro _; simp
    | cons b t2 =>
      intro h
      unfold consecOnes at h
      split at h
      · refine List.Chain'.cons ?_ (ih h)
        omega
      · exact absurd h (by simp)

theorem consecOnes_nodup (l : List Int) (h : consecOnes l = true) : l.Nodup := by
  have hc : l.Chain' (· < ·) := consecOnes_chain l h
  have hp : l.Pairwise (· < ·) := List.chain'_iff_pairwise.mp hc
  exact hp.imp (fun hab => ne_of_lt hab)

/-- A validated move never targets the same coordinate twice: the
contiguity check forces the coordinates along the shared axis to be
pairwise distinct. -/
theorem valid_coords_nodup (st : Engine) (pl : List Placement)
    (h : (isValidPlacement st pl).1 = true) : (pl.map Placement.pos).Nodup := by
  obtain ⟨hne, -, -, hch, hcv, -⟩ := valid_facts st pl h
  by_cases hlen : 1 < pl.length
  · by_cases hr : (pl.map Placement.row).dedup.length = 1
    · have hcols : (pl.map Placement.col).Nodup := by
        have hs := consecOnes_nodup _ (hch hlen hr)
        exact (sortInts_perm (pl.map Placement.col)).nodup_iff.mp hs
      have : ((pl.map Placement.pos).map Prod.snd).Nodup := by
        have hmm : (pl.map Placement.pos).map Prod.snd = pl.map Placement.col := by
          simp [List.map_map, Placement.pos]
        rw [hmm]
        exact hcols
      exact List.Nodup.of_map _ this
    · have hrows : (pl.map Placement.row).Nodup := by
        have hs := consecOnes_nodup _ (hcv hlen hr)
        exact (sortInts_perm (pl.map Placement.row)).nodup_iff.mp hs
      have : ((pl.map Placement.pos).map Prod.fst).Nodup := by
        have hmm : (pl.map Placement.pos).map Prod.fst = pl.map Placement.row := by
          simp [List.map_map, Placement.pos]
        rw [hmm]
        exact hrows
      exact List.Nodup.of_map _ this
  · match pl, hne with
    | [p], _ => simp
    | q :: r :: t, _ => simp at hlen

/-- A line that passes `validate_line` has at most `K = 6` tiles: whichever
option holds, one attribute list is duplicate-free over a 6-element type. -/
theorem validateLine_length_le (ts : List Tile) (h : (validateLine ts).1 = true) :
    ts.length ≤ 6 := by
  unfold validateLine at h
  split at h
  · omega
  by_cases h1 : (ts.map Tile.color).dedup.length = 1 ∧
      (ts.map Tile.shape).dedup.length = ts.length
  · have hnd : (ts.map Tile.shape).Nodup := by
      have heq := List.Sublist.eq_of_length (List.dedup_sublist (ts.map Tile.shape))
        (h1.2.trans (show ts.length = (ts.map Tile.shape).length by simp))
      have h2 := List.nodup_dedup (ts.map Tile.shape)
      rwa [heq] at h2
    have hle := hnd.length_le_card
    have hcard : Fintype.card Shape = 6 := by decide
    simp only [List.length_map, hcard] at hle
    exact hle
  by_cases h2 : (ts.map Tile.shape).dedup.length = 1 ∧
      (ts.map Tile.color).dedup.length = ts.length
  · have hnd : (ts.map Tile.color).Nodup := by
      have heq := List.Sublist.eq_of_length (List.dedup_sublist (ts.map Tile.color))
        (h2.2.trans (show ts.length = (ts.map Tile.color).length by simp))
      have h3 := List.nodup_dedup (ts.map Tile.color)
      rwa [heq] at h3
    have hle := hnd.length_le_card
    have hcard : Fintype.card Color = 6 := by decide
    simp only [List.length_map, hcard] at hle
    exact hle
  · simp [h1, h2] at h

/-- All lines inspected by a passed line check have length at most 6. -/
theorem checkLines_length_le (tb : Board) :
    ∀ pl : List Placement, (checkLines tb pl).1 = true →
      ∀ p ∈ pl, (rowTiles tb p.row p.col).length ≤ 6 ∧
        (colTiles tb p.row p.col).length ≤ 6 := by
  intro pl
  induction pl with
  | nil => intro _ p hp; cases hp
  | cons q rest ih =>
    intro h p hp
    unfold checkLines at h
    by_cases hrow : 1 < (rowTiles tb q.row q.col).length ∧
        (validateLine (rowTiles tb q.row q.col)).1 = false
    · simp [hrow] at h
    by_cases hcol : 1 < (colTiles tb q.row q.col).length ∧
        (validateLine (colTiles tb q.row q.col)).1 = false
    · simp [hrow, hcol] at h
    simp only [if_neg hrow, if_neg hcol] at h
    rcases List.mem_cons.mp hp with hp | hp
    · subst hp
      constructor
      · by_cases hr1 : 1 < (rowTiles tb p.row p.col).length
        · have hv : (validateLine (rowTiles tb p.row p.col)).1 = true := by
            rcases Bool.eq_false_or_eq_true (validateLine (rowTiles tb p.row p.col)).1 with
              ht | hf
            · exact ht
            · exact absurd ⟨hr1, hf⟩ hrow
          exact validateLine_length_le _ hv
        · omega
      · by_cases hc1 : 1 < (colTiles tb p.row p.col).length
        · have hv : (validateLine (colTiles tb p.row p.col)).1 = true := by
            rcases Bool.eq_false_or_eq_true (validateLine (colTiles tb p.row p.col)).1 with
              ht | hf
            · exact ht
            · exact absurd ⟨hc1, hf⟩ hcol
          exact validateLine_length_le _ hv
        · omega
    · exact ih h p hp

theorem validateLine_msg (ts : List Tile) :
    (validateLine ts).2 = "" ∨
      (validateLine ts).2 =
        "Must be all same color with unique shapes OR all same shape with unique colors" := by
  unfold validateLine
  dsimp only
  split
  · left; rfl
  split
  · left; rfl
  split
  · left; rfl
  · right; rfl

/-- The line-check phase can only answer `Valid`, `Row invalid: ...` or
`Column invalid: ...`; in particular never the connection error. -/
theorem checkLines_msg_ne (tb : Board) :
    ∀ pl : List Placement, (checkLines tb pl).2 ≠ "Must connect to existing tiles" := by
  intro pl
  induction pl with
  | nil => simp [checkLines]
  | cons q rest ih =>
    unfold checkLines
    dsimp only
    split
    · rcases validateLine_msg (rowTiles tb q.row q.col) with hm | hm <;> simp [hm]
    split
    · rcases validateLine_msg (colTiles tb q.row q.col) with hm | hm <;> simp [hm]
    · exact ih

/-- C7 (corrected): on a non-empty board, given that the earlier checks
pass, validation fails with `Disconnected` if and only if no placed tile is
orthogonally adjacent to an already-occupied board coordinate — adjacency to
another tile within the same move does not count, contrary to the claim's
second disjunct. -/
theorem disconnected_iff_core (st : Engine) (pl : List Placement)
    (hb : st.board ≠ [])
    (hne : pl ≠ [])
    (hhand : removeAll (getPlayer st st.current).hand (pl.map Placement.tile) ≠ none)
    (hocc : ∀ p ∈ pl, boardGet st.board p.pos = none)
    (hcol : ¬(1 < (pl.map Placement.row).dedup.length ∧
      1 < (pl.map Placement.col).dedup.length))
    (hch : ¬(1 < pl.length ∧ (pl.map Placement.row).dedup.length = 1 ∧
      consecOnes (sortInts (pl.map Placement.col)) = false))
    (hcv : ¬(1 < pl.length ∧ ¬(pl.map Placement.row).dedup.length = 1 ∧
      consecOnes (sortInts (pl.map Placement.row)) = false)) :
    isValidPlacement st pl = (false, "Must connect to existing tiles") ↔
      ∀ p ∈ pl, hasNeighborB st.board p.pos = false := by
  unfold isValidPlacement
  have hn1 : ¬(pl.isEmpty = true) := by simpa [List.isEmpty_iff] using hne
  have hn2 : ¬((removeAll (getPlayer st st.current).hand
      (pl.map Placement.tile)).isNone = true) := by
    cases hrm : removeAll (getPlayer st st.current).hand (pl.map Placement.tile) with
    | none => exact absurd hrm hhand
    | some a => simp
  have hn3 : ¬((pl.any fun p => (boardGet st.board p.pos).isSome) = true) := by
    simp only [Bool.not_eq_true, List.any_eq_false]
    intro p hp
    simp [hocc p hp]
  have hn5 : ¬(1 < pl.length ∧ (pl.map Placement.row).dedup.length = 1 ∧
      ¬(consecOnes (sortInts (pl.map Placement.col)) = true)) := by
    rintro ⟨a, b, c⟩
    exact hch ⟨a, b, by simpa using c⟩
  have hn6 : ¬(1 < pl.length ∧ ¬(pl.map Placement.row).dedup.length = 1 ∧
      ¬(consecOnes (sortInts (pl.map Placement.row)) = true)) := by
    rintro ⟨a, b, c⟩
    exact hcv ⟨a, b, by simpa using c⟩
  rw [if_neg hn1, if_neg hn2, if_neg hn3, if_neg hcol, if_neg hn5, if_neg hn6]
  have hEmpty : ¬(st.board.isEmpty = true) := by simpa [List.isEmpty_iff] using hb
  have hAnyIff : ¬((pl.any fun p => hasNeighborB st.board p.pos) = true) ↔
      ∀ p ∈ pl, hasNeighborB st.board p.pos = false := by
    simp [List.any_eq_false]
  by_cases hcon : ∀ p ∈ pl, hasNeighborB st.board p.pos = false
  · rw [if_pos ⟨hEmpty, hAnyIff.mpr hcon⟩]
    exact iff_of_true rfl hcon
  · rw [if_neg (fun hC => hcon (hAnyIff.mp hC.2))]
    apply iff_of_false
    · intro heq
      exact checkLines_msg_ne (placeAll st.board pl) pl (congrArg Prod.snd heq)
    · exact hcon

/-! ## The scoring loop as a sum over deduplicated line keys -/

/-- The stream of (already length-filtered) line keys the scoring loop
inspects, in inspection order: for each placement its row key when that row
line has length > 1, then its column key when that column line does. -/
def scoreEntries (tb : Board) (pl : List Placement) : List LineKey :=
  pl.flatMap (fun p =>
    (if 1 < keyLen tb (rowKeyAt tb p) then [rowKeyAt tb p] else []) ++
      (if 1 < keyLen tb (colKeyAt tb p) then [colKeyAt tb p] else []))

/-- The distinct affected lines of length > 1, identified by their
deduplication key (axis, perpendicular coordinate, line start). -/
def affectedKeys (tb : Board) (pl : List Placement) : Finset LineKey :=
  (scoreEntries tb pl).toFinset

/-- The specification-side score: the sum of the lengths of the distinct
affected lines of length > 1, each counted exactly once via its key. -/
def specLineScore (tb : Board) (pl : List Placement) : Nat :=
  ∑ k ∈ affectedKeys tb pl, keyLen tb k

/-- First-seen deduplicating accumulation over a stream of keys. -/
def foldSeen (tb : Board) : List LineKey → Nat → List LineKey → Nat
  | [], acc, _ => acc
  | k :: ks, acc, seen =>
    if k ∈ seen then foldSeen tb ks acc seen
    else foldSeen tb ks (acc + keyLen tb k) (k :: seen)

theorem insert_sdiff_insert_of_not_mem (k : LineKey) (A S : Finset LineKey)
    (hk : k ∉ S) : insert k A \ S = insert k (A \ insert k S) := by
  ext x
  simp only [Finset.mem_sdiff, Finset.mem_insert]
  constructor
  · rintro ⟨hx | hx, hxs⟩
    · exact Or.inl hx
    · by_cases hxk : x = k
      · exact Or.inl hxk
      · exact Or.inr ⟨hx, fun h => (h.elim hxk hxs)⟩
  · rintro (hx | ⟨hx, hxs⟩)
    · exact ⟨Or.inl hx, hx ▸ hk⟩
    · exact ⟨Or.inr hx, fun h => hxs (Or.inr h)⟩

theorem foldSeen_eq_sum (tb : Board) :
    ∀ (ks : List LineKey) (acc : Nat) (seen : List LineKey),
      foldSeen tb ks acc seen =
        acc + ∑ k ∈ ks.toFinset \ seen.toFinset, keyLen tb k := by
  intro ks
  induction ks with
  | nil => intro acc seen; simp [foldSeen]
  | cons k ks ih =>
    intro acc seen
    by_cases hk : k ∈ seen
    · rw [show foldSeen tb (k :: ks) acc seen = foldSeen tb ks acc seen from by
        simp [foldSeen, hk]]
      rw [ih]
      congr 2
      rw [List.toFinset_cons, Finset.insert_sdiff_of_mem _ (List.mem_toFinset.mpr hk)]
    · rw [show foldSeen tb (k :: ks) acc seen =
          foldSeen tb ks (acc + keyLen tb k) (k :: seen) from by simp [foldSeen, hk]]
      rw [ih]
      simp only [List.toFinset_cons]
      rw [insert_sdiff_insert_of_not_mem k _ _ (fun h => hk (List.mem_toFinset.mp h))]
      rw [Finset.sum_insert (by simp)]
      omega

theorem scoreLoop_eq_foldSeen (tb : Board) :
    ∀ (pl : List Placement) (acc : Nat) (seen : List LineKey),
      scoreLoop tb pl acc seen = foldSeen tb (scoreEntries tb pl) acc seen := by
  intro pl
  induction pl with
  | nil => intro acc seen; simp [scoreLoop, scoreEntries, foldSeen]
  | cons p rest ih =>
    intro acc seen
    have hsplit : scoreEntries tb (p :: rest) =
        ((if 1 < keyLen tb (rowKeyAt tb p) then [rowKeyAt tb p] else []) ++
          (if 1 < keyLen tb (colKeyAt tb p) then [colKeyAt tb p] else [])) ++
            scoreEntries tb rest := by
      simp [scoreEntries]
    rw [hsplit]
    unfold scoreLoop
    have hne : colKeyAt tb p ≠ rowKeyAt tb p := by simp [colKeyAt, rowKeyAt]
    by_cases h1 : 1 < keyLen tb (rowKeyAt tb p) <;>
      by_cases h2 : 1 < keyLen tb (colKeyAt tb p) <;>
        by_cases hm1 : rowKeyAt tb p ∈ seen <;>
          by_cases hm2 : colKeyAt tb p ∈ seen <;>
            simp [foldSeen, h1, h2, hm1, hm2, hne, ih]

theorem mem_scoreEntries_one_lt (tb : Board) (pl : List Placement) :
    ∀ k ∈ scoreEntries tb pl, 1 < keyLen tb k := by
  intro k hk
  simp only [scoreEntries, List.mem_flatMap] at hk
  rcases hk with ⟨p, -, hmem⟩
  rcases List.mem_append.mp hmem with hm | hm <;>
    [by_cases hg : 1 < keyLen tb (rowKeyAt tb p);
     by_cases hg : 1 < keyLen tb (colKeyAt tb p)] <;>
    simp [hg] at hm <;> exact hm ▸ hg

theorem specLineScore_eq_zero_iff (tb : Board) (pl : List Placement) :
    specLineScore tb pl = 0 ↔ affectedKeys tb pl = ∅ := by
  constructor
  · intro h0
    by_contra hne
    rcases Finset.nonempty_iff_ne_empty.mpr hne with ⟨k, hk⟩
    have h1 := Finset.sum_eq_zero_iff.mp h0 k hk
    have h2 := mem_scoreEntries_one_lt tb pl k (List.mem_toFinset.mp hk)
    omega
  · intro h
    simp [specLineScore, h]

/-- The scoring loop computes exactly the deduplicated line-length sum, and
the final fallback turns a zero sum into the single-placement point. -/
theorem calculateScore_core (st : Engine) (pl : List Placement) (hne : pl ≠ []) :
    calculateScore st pl =
      (if specLineScore (placeAll st.board pl) pl = 0 then 1
       else specLineScore (placeAll st.board pl) pl) := by
  unfold calculateScore
  dsimp only
  rw [scoreLoop_eq_foldSeen, foldSeen_eq_sum]
  have hemp : ¬ pl.isEmpty = true := by simpa [List.isEmpty_iff] using hne
  simp [specLineScore, affectedKeys, hemp]

theorem one_lt_of_mem_affectedKeys (tb : Board) (pl : List Placement) (k : LineKey)
    (hk : k ∈ affectedKeys tb pl) : 1 < keyLen tb k :=
  mem_scoreEntries_one_lt tb pl k (List.mem_toFinset.mp hk)

/-- C1 (confirmed): for every board and move accepted by validation, the
score is computed on the hypothetical board `board ∪ move` and equals the
sum of the lengths of the distinct affected lines of length > 1, each line
counted exactly once via its deduplication key; when no affected line has
length > 1, the move scores exactly 1 point. -/
theorem calculateScore_matches_dedup_line_sum (st : Engine) (pl : List Placement)
    (h : (isValidPlacement st pl).1 = true) :
    calculateScore st pl =
      (if affectedKeys (placeAll st.board pl) pl = ∅ then 1
       else specLineScore (placeAll st.board pl) pl) := by
  have hne := (valid_facts st pl h).1
  rw [calculateScore_core st pl hne]
  by_cases hz : affectedKeys (placeAll st.board pl) pl = ∅
  · simp [hz, (specLineScore_eq_zero_iff _ _).mpr hz]
  · have hnz : specLineScore (placeAll st.board pl) pl ≠ 0 :=
      fun h0 => hz ((specLineScore_eq_zero_iff _ _).mp h0)
    simp [hz, hnz]

/-- C2 (corrected): an affected line that reaches the maximum length
`K = 6` contributes exactly its length 6 and nothing more — the score is
still just the deduplicated sum of line lengths; the engine awards no
completion bonus. -/
theorem completed_line_scores_length_only (st : Engine) (pl : List Placement)
    (h : (isValidPlacement st pl).1 = true)
    (hsix : ∃ k ∈ affectedKeys (placeAll st.board pl) pl,
      keyLen (placeAll st.board pl) k = 6) :
    calculateScore st pl = specLineScore (placeAll st.board pl) pl := by
  have hne := (valid_facts st pl h).1
  rw [calculateScore_core st pl hne]
  rcases hsix with ⟨k, hk, -⟩
  have hz : affectedKeys (placeAll st.board pl) pl ≠ ∅ :=
    Finset.nonempty_iff_ne_empty.mp ⟨k, hk⟩
  have hnz : specLineScore (placeAll st.board pl) pl ≠ 0 :=
    fun h0 => hz ((specLineScore_eq_zero_iff _ _).mp h0)
  simp [hnz]

/-- C9 (confirmed): a placement whose hypothetical board contains a row or
column line through a placed coordinate of length greater than `K = 6` is
rejected by validation — no accepted move ever produces a line of length 7
or more. -/
theorem overlong_line_rejected (st : Engine) (pl : List Placement)
    (h : ∃ p ∈ pl, 6 < (rowTiles (placeAll st.board pl) p.row p.col).length ∨
      6 < (colTiles (placeAll st.board pl) p.row p.col).length) :
    (isValidPlacement st pl).1 = false := by
  rcases h with ⟨p, hp, hlong⟩
  rcases Bool.eq_false_or_eq_true (isValidPlacement st pl).1 with ht | hf
  · obtain ⟨-, -, -, -, -, hlines⟩ := valid_facts st pl ht
    have hle := checkLines_length_le (placeAll st.board pl) pl hlines p hp
    rcases hlong with hl | hl
    · omega
    · omega
  · exact hf

/-- C10 (confirmed): a move list containing two entries that target the same
(row, col) coordinate is always rejected by validation (the contiguity check
forbids a zero gap between sorted coordinates), so `make_move` refuses it. -/
theorem duplicate_coordinate_rejected (st : Engine) (pl : List Placement)
    (h : ¬ (pl.map Placement.pos).Nodup) :
    (isValidPlacement st pl).1 = false := by
  rcases Bool.eq_false_or_eq_true (isValidPlacement st pl).1 with ht | hf
  · exact absurd (valid_coords_nodup st pl ht) h
  · exact hf

/-! ## Tile conservation of the committed state machine -/

theorem removeAll_multiset :
    ∀ (ts h h2 : List Tile), removeAll h ts = some h2 →
      (h : Multiset Tile) = (h2 : Multiset Tile) + (ts : Multiset Tile) := by
  intro ts
  induction ts with
  | nil =>
    intro h h2 hr
    simp [removeAll] at hr
    simp [hr]
  | cons t ts ih =>
    intro h h2 hr
    unfold removeAll at hr
    split at hr
    · have hmem : t ∈ h := by assumption
      have h1 := ih (h.erase t) h2 hr
      have h3 : (h : Multiset Tile) = t ::ₘ (h.erase t : Multiset Tile) := by
        rw [← Multiset.coe_erase]
        exact (Multiset.cons_erase (by simpa using hmem)).symm
      rw [h3, h1]
      rw [show ((t :: ts : List Tile) : Multiset Tile) = t ::ₘ (ts : Multiset Tile) from
        (Multiset.cons_coe t ts).symm]
      rw [Multiset.add_cons]
    · exact absurd hr (by simp)

theorem removeAll_eq_foldl :
    ∀ (ts h h2 : List Tile), removeAll h ts = some h2 →
      ts.foldl (fun h t => h.erase t) h = h2 := by
  intro ts
  induction ts with
  | nil =>
    intro h h2 hr
    simp [removeAll] at hr
    simp [hr]
  | cons t ts ih =>
    intro h h2 hr
    unfold removeAll at hr
    split at hr
    · exact ih (h.erase t) h2 hr
    · exact absurd hr (by simp)

theorem boardGet_append_single (b : Board) (p : Pos) (t : Tile) (q : Pos) :
    boardGet (b ++ [(p, t)]) q =
      (match boardGet b q with
       | some x => some x
       | none => if p = q then some t else none) := by
  induction b with
  | nil => simp [boardGet]
  | cons e rest ih =>
    rcases e with ⟨r, u⟩
    by_cases hr : r = q
    · simp [boardGet, hr]
    · simpa [boardGet, hr] using ih

theorem placeAll_values (pl : List Placement) :
    ∀ b : Board, (∀ p ∈ pl, boardGet b p.pos = none) → (pl.map Placement.pos).Nodup →
      ((placeAll b pl).map (fun e => e.2) : Multiset Tile) =
        (b.map (fun e => e.2) : Multiset Tile) + (pl.map Placement.tile : Multiset Tile) := by
  induction pl with
  | nil =>
    intro b _ _
    simp [placeAll]
  | cons p rest ih =>
    intro b hfresh hnd
    rw [List.map_cons, List.nodup_cons] at hnd
    obtain ⟨hpn, hnd2⟩ := hnd
    have hb1 : boardSet b p.pos p.tile = b ++ [(p.pos, p.tile)] := by
      simp [boardSet, hfresh p (by simp)]
    have hstep : placeAll b (p :: rest) = placeAll (b ++ [(p.pos, p.tile)]) rest := by
      simp [placeAll, hb1]
    rw [hstep]
    have hfresh2 : ∀ q ∈ rest, boardGet (b ++ [(p.pos, p.tile)]) q.pos = none := by
      intro q hq
      rw [boardGet_append_single]
      rw [hfresh q (by simp [hq])]
      have hne : p.pos ≠ q.pos := by
        intro hcontra
        exact hpn (hcontra ▸ List.mem_map_of_mem Placement.pos hq)
      simp [hne]
    rw [ih _ hfresh2 hnd2]
    have hvals : ((b ++ [(p.pos, p.tile)]).map (fun e => e.2) : Multiset Tile) =
        (b.map (fun e => e.2) : Multiset Tile) + {p.tile} := by
      rw [List.map_append, ← Multiset.coe_singleton, Multiset.coe_add]
      rfl
    rw [hvals]
    rw [add_assoc, Multiset.singleton_add, List.map_cons, ← Multiset.cons_coe,
      Multiset.add_cons]

theorem totalTiles_congr {s s2 : Engine} (hb : s.board = s2.board)
    (h0 : s.p0.hand = s2.p0.hand) (h1 : s.p1.hand = s2.p1.hand)
    (hbag : s.bag = s2.bag) : totalTiles s = totalTiles s2 := by
  simp [totalTiles, hb, h0, h1, hbag]

theorem drawLoop_totalTiles : ∀ (n : Nat) (st : Engine),
    totalTiles (drawLoop st n) = totalTiles st := by
  intro n
  induction n with
  | zero => intro st; rfl
  | succ n ih =>
    intro st
    unfold drawLoop
    cases hlast : st.bag.getLast? with
    | none =>
      have hd : drawTile st.bag = (none, st.bag) := by simp [drawTile, hlast]
      simp only [hd]
      rw [ih]
    | some t =>
      have hd : drawTile st.bag = (some t, st.bag.dropLast) := by simp [drawTile, hlast]
      simp only [hd]
      rw [ih]
      have hbag : (st.bag.dropLast : Multiset Tile) + {t} = (st.bag : Multiset Tile) := by
        have hl := List.dropLast_append_getLast? t (Option.mem_def.mpr hlast)
        rw [← Multiset.coe_singleton, Multiset.coe_add, hl]
      by_cases hcur : st.current = 0 <;>
        simp only [setPlayer, getPlayer, hcur, ite_true, ite_false, totalTiles,
          ← Multiset.coe_add, Multiset.coe_singleton] <;>
        rw [← hbag] <;>
        abel

theorem totalTiles_scoredState (st : Engine) (pl : List Placement) :
    totalTiles (scoredState st pl) = totalTiles (placedState st pl) := by
  unfold scoredState
  by_cases hcur : (placedState st pl).current = 0 <;>
    simp [setPlayer, getPlayer, hcur, totalTiles]

theorem totalTiles_placedState (st : Engine) (pl : List Placement)
    (hocc : ∀ p ∈ pl, boardGet st.board p.pos = none)
    (hnd : (pl.map Placement.pos).Nodup)
    (hrem : removeAll (getPlayer st st.current).hand (pl.map Placement.tile) ≠ none) :
    totalTiles (placedState st pl) = totalTiles st := by
  obtain ⟨h2, hh2⟩ : ∃ h2,
      removeAll (getPlayer st st.current).hand (pl.map Placement.tile) = some h2 := by
    cases hr : removeAll (getPlayer st st.current).hand (pl.map Placement.tile) with
    | none => exact absurd hr hrem
    | some a => exact ⟨a, rfl⟩
  have hfold : handAfter st pl = h2 := by
    unfold handAfter
    rw [← removeAll_eq_foldl (pl.map Placement.tile) _ _ hh2, List.foldl_map]
  have hhand : ((getPlayer st st.current).hand : Multiset Tile) =
      (h2 : Multiset Tile) + (pl.map Placement.tile : Multiset Tile) :=
    removeAll_multiset _ _ _ hh2
  have hboard := placeAll_values pl st.board hocc hnd
  unfold placedState
  rw [hfold]
  by_cases hcur : st.current = 0
  · simp only [getPlayer, setPlayer, hcur, ite_true, totalTiles]
    simp only [getPlayer, hcur, ite_true] at hhand
    rw [hboard, hhand]
    abel
  · simp only [getPlayer, setPlayer, hcur, ite_false, totalTiles]
    simp only [getPlayer, hcur, ite_false] at hhand
    rw [hboard, hhand]
    abel

/-- C8 (corrected): the committed state machine conserves tiles —
`make_move` never creates or destroys a tile (the multiset split across
board, hands and bag is invariant) — but the AI's search-and-move operation
does not: its snapshot/restore loses the tiles drawn from the bag during
simulation, as the counterexample shows. -/
theorem makeMove_preserves_total_core (st : Engine) (pl : List Placement) :
    totalTiles (makeMove st pl).2 = totalTiles st := by
  rcases Bool.eq_false_or_eq_true (isValidPlacement st pl).1 with ht | hf
  · obtain ⟨hne, hrem, hocc, -, -, -⟩ := valid_facts st pl ht
    have hnd := valid_coords_nodup st pl ht
    unfold makeMove
    rw [if_pos ht]
    show totalTiles (drawLoop (scoredState st pl) pl.length) = totalTiles st
    rw [drawLoop_totalTiles, totalTiles_scoredState,
      totalTiles_placedState st pl hocc hnd hrem]
  · unfold makeMove
    rw [if_neg (by simp [hf])]

/-! ## Concrete states for witnesses and counterexamples -/

def tCircleRed : Tile := ⟨Shape.circle, Color.red⟩

def tSquareRed : Tile := ⟨Shape.square, Color.red⟩

def tStarRed : Tile := ⟨Shape.star, Color.red⟩

def tDiamondRed : Tile := ⟨Shape.diamond, Color.red⟩

def tCloverRed : Tile := ⟨Shape.clover, Color.red⟩

def tCrossRed : Tile := ⟨Shape.cross, Color.red⟩

/-- Board `{(0,0): RED CIRCLE}`, human to move holding a red square. -/
def stW1 : Engine :=
  ⟨[((0, 0), tCircleRed)], ⟨[tSquareRed], 0, false⟩, ⟨[], 0, true⟩, 0,
    GState.playerTurn, [], 0⟩

def mvW1 : List Placement := [⟨0, 1, tSquareRed⟩]

/-- Five red tiles of distinct shapes in a row; the red cross completes the
line to the full attribute cardinality 6. -/
def stQ2 : Engine :=
  ⟨[((0, 0), tCircleRed), ((0, 1), tSquareRed), ((0, 2), tStarRed),
    ((0, 3), tDiamondRed), ((0, 4), tCloverRed)],
    ⟨[tCrossRed], 0, false⟩, ⟨[], 0, true⟩, 0, GState.playerTurn, [], 0⟩

def mvQ2 : List Placement := [⟨0, 5, tCrossRed⟩]

def stW3 : Engine :=
  ⟨[], ⟨[], 0, false⟩, ⟨[], 0, true⟩, 0, GState.playerTurn, [], 0⟩

/-- A Terminal state: the game ended after two consecutive passes. -/
def stT4 : Engine :=
  ⟨[((0, 0), tCircleRed)], ⟨[], 0, false⟩, ⟨[], 0, true⟩, 0, GState.gameOver, [], 2⟩

/-- The human holds exactly one playable tile and the bag is empty. -/
def stC5 : Engine :=
  ⟨[((0, 0), tCircleRed)], ⟨[tSquareRed], 0, false⟩, ⟨[], 0, true⟩, 0,
    GState.playerTurn, [], 0⟩

def mvC5 : List Placement := [⟨0, 1, tSquareRed⟩]

/-- AI to move with one tile in hand and one tile left in the bag; the
opponent's hand is empty. -/
def stC6 : Engine :=
  ⟨[((0, 0), tCircleRed)], ⟨[], 0, false⟩, ⟨[tSquareRed], 0, true⟩, 1,
    GState.aiTurn, [tCircleRed], 0⟩

def mvC6 : List Placement := [⟨0, 1, tSquareRed⟩]

/-- A two-tile move whose tiles are orthogonally adjacent to each other but
far away from the occupied board. -/
def stC7 : Engine :=
  ⟨[((0, 0), tCircleRed)], ⟨[tSquareRed, tCircleRed], 0, false⟩, ⟨[], 0, true⟩, 0,
    GState.playerTurn, [], 0⟩

def mvC7 : List Placement := [⟨5, 5, tSquareRed⟩, ⟨5, 6, tCircleRed⟩]

def stW7 : Engine :=
  ⟨[((0, 0), tCircleRed)], ⟨[tSquareRed], 0, false⟩, ⟨[], 0, true⟩, 0,
    GState.playerTurn, [], 0⟩

def mvW7 : List Placement := [⟨0, 1, tSquareRed⟩]

def stC8 : Engine :=
  ⟨[((0, 0), tCircleRed)], ⟨[], 0, false⟩, ⟨[tSquareRed], 0, true⟩, 1,
    GState.aiTurn, [tCircleRed], 0⟩

/-- A full six-tile red row; any seventh tile placed at its end makes the
hypothetical line longer than the attribute cardinality. -/
def stC9 : Engine :=
  ⟨[((0, 0), tCircleRed), ((0, 1), tSquareRed), ((0, 2), tStarRed),
    ((0, 3), tDiamondRed), ((0, 4), tCloverRed), ((0, 5), tCrossRed)],
    ⟨[tCircleRed], 0, false⟩, ⟨[], 0, true⟩, 0, GState.playerTurn, [], 0⟩

def mvC9 : List Placement := [⟨0, 6, tCircleRed⟩]

def stC10 : Engine :=
  ⟨[((0, 0), tCircleRed)], ⟨[tSquareRed, tSquareRed], 0, false⟩, ⟨[], 0, true⟩, 0,
    GState.playerTurn, [], 0⟩

def mvC10 : List Placement := [⟨0, 1, tSquareRed⟩, ⟨0, 1, tSquareRed⟩]

/-! ## Witnesses and counterexamples -/

/-- C1 witness: scenario B of the spec — placing the red square next to the
red circle is accepted and scores the 2-line. -/
theorem calculateScore_matches_dedup_line_sum_witness :
    (isValidPlacement stW1 mvW1).1 = true ∧
      calculateScore stW1 mvW1 =
        (if affectedKeys (placeAll stW1.board mvW1) mvW1 = ∅ then 1
         else specLineScore (placeAll stW1.board mvW1) mvW1) :=
  ⟨by decide, calculateScore_matches_dedup_line_sum stW1 mvW1 (by decide)⟩

/-- C2 counterexample: completing a line to the full length `K = 6` is a
validated move that scores exactly 6 — not `6 + 6`, as a completion bonus of
`K` would demand. -/
theorem completed_line_no_bonus_counterexample :
    (isValidPlacement stQ2 mvQ2).1 = true ∧
      keyLen (placeAll stQ2.board mvQ2)
        (rowKeyAt (placeAll stQ2.board mvQ2) ⟨0, 5, tCrossRed⟩) = 6 ∧
      calculateScore stQ2 mvQ2 = 6 ∧ ¬ calculateScore stQ2 mvQ2 = 6 + 6 := by
  decide

/-- C2 witness: the amended statement at the same 6-line input. -/
theorem completed_line_scores_length_only_witness :
    (isValidPlacement stQ2 mvQ2).1 = true ∧
      calculateScore stQ2 mvQ2 = specLineScore (placeAll stQ2.board mvQ2) mvQ2 :=
  ⟨by decide, completed_line_scores_length_only stQ2 mvQ2 (by decide) (by decide)⟩

/-- C3 witness: the empty move list is rejected and the state is returned
unchanged. -/
theorem makeMove_invalid_eq_witness :
    (isValidPlacement stW3 ([] : List Placement)).1 = false ∧
      makeMove stW3 [] = ((false, 0, (isValidPlacement stW3 []).2), stW3) :=
  ⟨by decide, makeMove_invalid_eq stW3 [] (by decide)⟩

/-- C4 counterexample: passing in a Terminal state changes the state (the
pass counter and current player move), refuting absorption. -/
theorem terminal_pass_mutates_counterexample :
    stT4.gstate = GState.gameOver ∧ passTurn stT4 ≠ stT4 := by
  decide

/-- C4 witness: the amended statement at the same Terminal state. -/
theorem passTurn_unfolded_witness :
    stT4.gstate = GState.gameOver ∧ 2 ≤ stT4.passes ∧
      ((passTurn stT4).gstate = GState.gameOver ∧
        (passTurn stT4).passes = stT4.passes + 1 ∧
        (passTurn stT4).current = 1 - stT4.current) :=
  ⟨by decide, by decide, passTurn_unfolded stT4 (by decide) (by decide)⟩

/-- C5 counterexample: a successful placement that empties the acting
player's hand while the bag is empty still advances the turn — the phase
does not become Terminal. -/
theorem empty_hand_empty_bag_counterexample :
    (makeMove stC5 mvC5).1.1 = true ∧
      (getPlayer (makeMove stC5 mvC5).2 0).hand = [] ∧
      (makeMove stC5 mvC5).2.bag = [] ∧
      ¬ (makeMove stC5 mvC5).2.gstate = GState.gameOver := by
  decide

/-- C5 witness: the amended statement at the same input. -/
theorem makeMove_valid_final_witness :
    (isValidPlacement stC5 mvC5).1 = true ∧
      ((makeMove stC5 mvC5).2.gstate ≠ GState.gameOver ∧
        (makeMove stC5 mvC5).2.current = 1 - stC5.current) :=
  ⟨by decide, makeMove_valid_final stC5 mvC5 (by decide)⟩

/-- C6 counterexample: one snapshot/simulate/restore cycle of the AI root
search leaves the tile bag and the consecutive-pass counter changed — they
are not restored. -/
theorem ai_search_leaks_counterexample :
    (aiSearchStep stC6 mvC6).2.bag ≠ stC6.bag ∧
      (aiSearchStep stC6 mvC6).2.passes ≠ stC6.passes := by
  decide

/-- C7 counterexample: a move whose two tiles are adjacent to each other
(the claim's second disjunct) but not to the board is nevertheless rejected
as `Disconnected`. -/
theorem within_move_adjacency_counterexample :
    (∃ p ∈ mvC7, ∃ q ∈ mvC7, p ≠ q ∧ (dirs.any fun d => shift p.pos d = q.pos) = true) ∧
      isValidPlacement stC7 mvC7 = (false, "Must connect to existing tiles") := by
  decide

/-- C7 witness: the amended iff at a connected single-tile move. -/
theorem disconnected_iff_core_witness :
    stW7.board ≠ [] ∧
      (isValidPlacement stW7 mvW7 = (false, "Must connect to existing tiles") ↔
        ∀ p ∈ mvW7, hasNeighborB stW7.board p.pos = false) :=
  ⟨by decide, disconnected_iff_core stW7 mvW7 (by decide) (by decide) (by decide)
    (by decide) (by decide) (by decide) (by decide)⟩

/-- C8 counterexample: a full AI move request destroys a tile — the total
drops from 3 tiles to 2, because the bag tile drawn during simulation is
lost when the hands are restored. -/
theorem ai_move_destroys_tiles_counterexample :
    totalTiles (aiMakeMove stC8).2 ≠ totalTiles stC8 ∧
      Multiset.card (totalTiles stC8) = 3 ∧
      Multiset.card (totalTiles (aiMakeMove stC8).2) = 2 := by
  decide

/-- C9 witness: the seventh tile appended to a full six-line is rejected. -/
theorem overlong_line_rejected_witness :
    (∃ p ∈ mvC9, 6 < (rowTiles (placeAll stC9.board mvC9) p.row p.col).length ∨
        6 < (colTiles (placeAll stC9.board mvC9) p.row p.col).length) ∧
      (isValidPlacement stC9 mvC9).1 = false :=
  ⟨by decide, overlong_line_rejected stC9 mvC9 (by decide)⟩

/-- C10 witness: a move targeting the same coordinate twice is rejected. -/
theorem duplicate_coordinate_rejected_witness :
    ¬ (mvC10.map Placement.pos).Nodup ∧ (isValidPlacement stC10 mvC10).1 = false :=
  ⟨by decide, duplicate_coordinate_rejected stC10 mvC10 (by decide)⟩

end QGame
